import Mathlib

/-!
Shallow embedding of the core logic of src/app.py (a YouTube performance
benchmark dashboard): the ISO-8601 duration parser, the reference-set
type-filter fallback, the percentile-band aggregator, the
performance-ranking block, the synthetic view-trajectory generator and the
projection simulator.

Python floats are modelled as rationals in the purely arithmetic parts
(so statements there are decidable) and as real numbers where the source
calls np.exp; Python int(x) on a nonnegative float is truncation toward
zero, modelled by truncInt.  The np.random draws of the source are passed
in explicitly as functions from the draw index to the drawn value, so
that statements can quantify over every possible draw.
-/

namespace ChannelStats

/-! ### Duration parser (src/app.py lines 259-274) -/

/-- Longest leading run of decimal digits of a character list, together
with the remaining characters (the greedy matching of a digit run). -/
def takeDigits : List Char → List Char × List Char
  | [] => ([], [])
  | c :: rest =>
    if c.isDigit then
      let p := takeDigits rest
      (c :: p.1, p.2)
    else ([], c :: rest)

/-- Numeric value of a captured digit run (Python int on the group). -/
def digitsToNat (ds : List Char) : ℕ :=
  ds.foldl (fun acc c => 10 * acc + (c.toNat - 48)) 0

/-- Match of a nonempty digit run followed by the character target, at the
head of the input.  Because a digit can never equal the targets H, M, S,
greedy matching with backtracking coincides with maximal munch. -/
def matchNumThen (target : Char) (s : List Char) : Option ℕ :=
  let p := takeDigits s
  match p.2 with
  | c :: _ => if p.1 ≠ [] ∧ c = target then some (digitsToNat p.1) else none
  | [] => none

/-- Leftmost-match semantics of re.search for a digit-run-then-target
pattern: try to match at each successive start position. -/
def searchNumThen (target : Char) : List Char → Option ℕ
  | [] => none
  | c :: rest =>
    match matchNumThen target (c :: rest) with
    | some n => some n
    | none => searchNumThen target rest

/-- Embedding of parse_duration (src/app.py lines 260-274): the three
sub-patterns for hours, minutes and seconds are searched independently in
the token; a sub-pattern that matches nowhere contributes 0. -/
def parse_duration (s : List Char) : ℕ :=
  (match searchNumThen 'H' s with | some n => n * 3600 | none => 0) +
  (match searchNumThen 'M' s with | some n => n * 60 | none => 0) +
  (match searchNumThen 'S' s with | some n => n | none => 0)

/-! ### Reference-set type-filter fallback (src/app.py lines 709-721) -/

/-- Embedding of the type-filter fallback block: the input is the list of
isShort flags of the fetched reference videos, the filter is some true
(shorts only), some false (long-form only) or none (all videos).  Returns
the effective filter together with whether the fallback warning fired. -/
def resolveTypeFilter (flt : Option Bool) (vids : List Bool) : Option Bool × Bool :=
  let shorts_count := (vids.filter id).length
  let longform_count := vids.length - shorts_count
  match flt with
  | some true => if shorts_count < 5 then (none, true) else (some true, false)
  | some false => if longform_count < 5 then (none, true) else (some false, false)
  | none => (none, false)

/-! ### Benchmark aggregator (src/app.py lines 389-399) -/

/-- Linear-interpolation quantile of a list of observations, as computed
by pandas Series.quantile: with the observations sorted ascending and
h = q * (n - 1), the result is s[floor h] + (h - floor h) * (s[floor h + 1] - s[floor h]).
For q in [0, 1] on a nonempty list the out-of-range getD default is never
multiplied by a nonzero coefficient. -/
def quantile (xs : List ℚ) (q : ℚ) : ℚ :=
  let s := List.insertionSort (· ≤ ·) xs
  let h : ℚ := q * ((xs.length : ℚ) - 1)
  let i : ℕ := ⌊h⌋.toNat
  s.getD i 0 + (h - (⌊h⌋ : ℚ)) * (s.getD (i + 1) 0 - s.getD i 0)

/-- One row of the benchmark summary table, with the source's column
names and order (lower_band, upper_band, median, mean, count). -/
structure BandRow where
  day : ℕ
  lower_band : ℚ
  upper_band : ℚ
  median : ℚ
  mean : ℚ
  count : ℕ
  deriving DecidableEq

/-- The cumulative-view observations of one day: the group contents of
df.groupby('day')['cumulative_views'] for key d, in input order. -/
def obsAtDay (df : List (ℕ × ℚ)) (d : ℕ) : List ℚ :=
  (df.filter (fun r => r.1 == d)).map (fun r => r.2)

/-- The aggregated row for one day of calculate_benchmark: the lower band
is the quantile at level percentile_range / 100, the upper band the
quantile at level 1 - percentile_range / 100, plus median, mean and
sample count of the day's observations. -/
def bandRowFor (df : List (ℕ × ℚ)) (p : ℚ) (d : ℕ) : BandRow :=
  { day := d
    lower_band := quantile (obsAtDay df d) (p / 100)
    upper_band := quantile (obsAtDay df d) (1 - p / 100)
    median := quantile (obsAtDay df d) (1 / 2)
    mean := (obsAtDay df d).sum / ((obsAtDay df d).length : ℚ)
    count := (obsAtDay df d).length }

/-- Embedding of calculate_benchmark(df, percentile_range): one row per
distinct day present in the input, days ascending (pandas groupby sorts
its group keys). -/
def calculate_benchmark (df : List (ℕ × ℚ)) (p : ℚ) : List BandRow :=
  (List.insertionSort (· ≤ ·) (df.map (fun r => r.1)).dedup).map (bandRowFor df p)

/-! ### Performance percentile block (src/app.py lines 771-788) -/

/-- Outcome of the performance-percentile block.  The payloads are the
numbers interpolated into the displayed strings: topPct n renders as
"Top n%", bottomPct n as "Bottom n%", approxPct x as the approximate
percentile message, and average as the literal "Average". -/
inductive RankLabel
  | topPct (n : ℤ)
  | bottomPct (n : ℤ)
  | approxPct (x : ℚ)
  | average
  deriving DecidableEq

/-- Embedding of the ranking block: given the video's current view count,
the band row values at its age and the percentile_range setting, produce
the rank label and the display color, following the source's branch
order. -/
def performancePercentile (viewCount lower upper : ℚ) (p : ℤ) : RankLabel × String :=
  if viewCount ≥ upper then (RankLabel.topPct (100 - p), "green")
  else if viewCount ≤ lower then (RankLabel.bottomPct p, "red")
  else if upper - lower > 0 then
    (RankLabel.approxPct ((p : ℚ) + (viewCount - lower) / (upper - lower) * (100 - 2 * (p : ℚ))),
      "orange")
  else (RankLabel.average, "gray")

/-! ### Synthetic trajectory generator (src/app.py lines 313-357) -/

/-- The raw shape sample of generate_view_trajectory at day index i:
a Gompertz-style curve for shorts and a logistic curve (growth rate 10,
midpoint at 35 percent of the window) for long-form videos. -/
noncomputable def rawShape (is_short : Bool) (days i : ℕ) : ℝ :=
  if is_short then
    1 - Real.exp (-5 * (((i + 1 : ℕ) : ℝ) / (days : ℝ)) ^ (1.5 : ℝ))
  else
    1 / (1 + Real.exp (-10 * (((i + 1 : ℕ) : ℝ) / (days : ℝ) - 0.35)))

/-- The raw trajectory list: total_views times the shape, per day index. -/
noncomputable def rawTrajectory (days total_views : ℕ) (is_short : Bool) : List ℝ :=
  (List.range days).map (fun i => (total_views : ℝ) * rawShape is_short days i)

/-- scaling_factor = total_views / trajectory[-1] if trajectory[-1] > 0
else 1 (the raw list has length days, so its last entry is at days - 1). -/
noncomputable def scaling_factor (days total_views : ℕ) (is_short : Bool) : ℝ :=
  if (rawTrajectory days total_views is_short).getD (days - 1) 0 > 0 then
    (total_views : ℝ) / (rawTrajectory days total_views is_short).getD (days - 1) 0
  else 1

/-- Every raw sample multiplied by the scaling factor. -/
noncomputable def scaledTrajectory (days total_views : ℕ) (is_short : Bool) : List ℝ :=
  (rawTrajectory days total_views is_short).map
    (fun v => v * scaling_factor days total_views is_short)

/-- The in-place noise-and-monotonicity loop of generate_view_trajectory
after day 0: each value becomes max (prev + 10) (value + noise i), where
prev is the previous already-adjusted value and i the day index. -/
noncomputable def noisePassAux (noise : ℕ → ℝ) : ℕ → ℝ → List ℝ → List ℝ
  | _, _, [] => []
  | i, prev, x :: rest =>
    max (prev + 10) (x + noise i) ::
      noisePassAux noise (i + 1) (max (prev + 10) (x + noise i)) rest

/-- Day 0 of the loop: the value is floored at 100. -/
noncomputable def noisePass (noise : ℕ → ℝ) : List ℝ → List ℝ
  | [] => []
  | x :: rest =>
    max 100 (x + noise 0) :: noisePassAux noise 1 (max 100 (x + noise 0)) rest

/-- The trajectory after scaling, noise injection and monotonicity
repair, i.e. the final cumulative (pre-int) values of the generator. -/
noncomputable def adjustedTrajectory (days total_views : ℕ) (is_short : Bool)
    (noise : ℕ → ℝ) : List ℝ :=
  noisePass noise (scaledTrajectory days total_views is_short)

/-- Tail of the daily-views derivation: successive differences. -/
noncomputable def diffsAux (prev : ℝ) : List ℝ → List ℝ
  | [] => []
  | x :: rest => (x - prev) :: diffsAux x rest

/-- daily_views: the head of the cumulative list, then successive
differences (daily_views[i] = trajectory[i] - trajectory[i-1]). -/
noncomputable def diffs : List ℝ → List ℝ
  | [] => []
  | x :: rest => x :: diffsAux x rest

/-- Python int(x) on a float: truncation toward zero. -/
noncomputable def truncInt (x : ℝ) : ℤ := if 0 ≤ x then ⌊x⌋ else ⌈x⌉

/-- One emitted data point of generate_view_trajectory (the videoId
column is dropped; day, daily_views and cumulative_views are kept). -/
structure TrajPoint where
  day : ℕ
  daily_views : ℤ
  cumulative_views : ℤ
  deriving DecidableEq

/-- Embedding of generate_view_trajectory(video_id, days, total_views,
is_short): the per-day normal noise draws (np.random.normal with standard
deviation 0.05 * total_views) are passed in as the function noise, so all
statements below quantify over every possible draw.  Note that when
total_views = 0 the standard deviation is 0 and the only possible draw is
the zero function. -/
noncomputable def generate_view_trajectory (days total_views : ℕ) (is_short : Bool)
    (noise : ℕ → ℝ) : List TrajPoint :=
  (List.range days).map (fun day =>
    ⟨day,
      truncInt ((diffs (adjustedTrajectory days total_views is_short noise)).getD day 0),
      truncInt ((adjustedTrajectory days total_views is_short noise).getD day 0)⟩)

/-- Chain predicate for the monotonicity-repair invariant: every element
exceeds its predecessor by at least 10, starting from p. -/
def StepsUp (p : ℝ) : List ℝ → Prop
  | [] => True
  | x :: rest => p + 10 ≤ x ∧ StepsUp x rest

/-- A concrete noise draw for the delta-consistency counterexample: it
shifts the two scaled samples of the (days = 2, total_views = 1000,
shorts) trajectory to exactly 100.5 and 111.4.  The noise standard
deviation there is 0.05 * 1000 = 50 > 0, so any real draw has positive
density and this is a possible draw. -/
noncomputable def c4Noise : ℕ → ℝ := fun i =>
  if i = 0 then 100.5 - (scaledTrajectory 2 1000 true).getD 0 0
  else 111.4 - (scaledTrajectory 2 1000 true).getD 1 0

/-! ### Projection simulator (src/app.py lines 402-489) -/

/-- One emitted row of simulate_video_performance. -/
structure SimPoint where
  day : ℕ
  daily_views : ℤ
  cumulative_views : ℤ
  projected : Bool
  deriving DecidableEq

/-- One iteration of the first (non-projected) loop: the current day uses
the real current view count, earlier days the benchmark median scaled by
the performance factor; the uniform jitter draw is applied to either
before int conversion, and daily views are derived from the previous
emitted cumulative value (floored at 0 except on day 0). -/
noncomputable def simStep1 (cv dsp : ℕ) (perfFactor : ℝ) (med : List ℝ) (jit : ℕ → ℝ)
    (day : ℕ) (prev : ℤ) : SimPoint :=
  let cum := truncInt ((if day = dsp then (cv : ℝ) else med.getD day 0 * perfFactor) * jit day)
  ⟨day, if day = 0 then cum else max 0 (cum - prev), cum, false⟩

/-- One iteration of the projection loop: benchmark median scaled by the
performance factor, no jitter, marked projected. -/
noncomputable def simStep2 (perfFactor : ℝ) (med : List ℝ) (day : ℕ) (prev : ℤ) : SimPoint :=
  ⟨day, max 0 (truncInt (med.getD day 0 * perfFactor) - prev),
    truncInt (med.getD day 0 * perfFactor), true⟩

/-- Sequential loop threading the last emitted cumulative value through
(the source reads data[-1]['cumulative_views']). -/
noncomputable def simRun (f : ℕ → ℤ → SimPoint) : List ℕ → ℤ → List SimPoint
  | [], _ => []
  | d :: rest, prev => f d prev :: simRun f rest (f d prev).cumulative_views

/-- Embedding of simulate_video_performance(video_data, benchmark_data,
max_days): dsp0 is the computed days_since_publish, cv the video's
current view count, med the benchmark median column (indexed by day),
and jit the per-day np.random.uniform(0.98, 1.02) draws of the first
loop.  The source clamps the age to at least 2, caps the projection at
min(max_days, 90) days, and breaks both loops at the end of the
benchmark table. -/
noncomputable def simulate_video_performance (dsp0 cv : ℕ) (med : List ℝ) (max_days : ℕ)
    (jit : ℕ → ℝ) : List SimPoint :=
  let dsp := if dsp0 < 2 then 2 else dsp0
  let days_to_project := max dsp (min max_days 90)
  let perfFactor : ℝ :=
    if dsp < med.length then
      (if med.getD dsp 0 > 0 then (cv : ℝ) / med.getD dsp 0 else 1)
    else 1
  let l1 := simRun (simStep1 cv dsp perfFactor med jit) (List.range (min (dsp + 1) med.length)) 0
  l1 ++ simRun (simStep2 perfFactor med)
    (List.range' (dsp + 1) (min (days_to_project + 1) med.length - (dsp + 1)))
    ((l1.getD (l1.length - 1) ⟨0, 0, 0, false⟩).cumulative_views)

end ChannelStats

namespace ChannelStats

/-! ### Theorems about the computable components -/

/-- C9: if none of the hour, minute, second sub-patterns matches anywhere
in the token, parse_duration returns 0 seconds; the function is total on
strings by construction (no error path exists). -/
theorem parse_duration_zero_fallback (s : List Char)
    (hH : searchNumThen 'H' s = none) (hM : searchNumThen 'M' s = none)
    (hS : searchNumThen 'S' s = none) : parse_duration s = 0 := by
  simp [parse_duration, hH, hM, hS]

/-- Witness for C9: the token "PT" contains no digit run before an H, M
or S, and parses to 0 seconds. -/
theorem parse_duration_zero_fallback_witness :
    searchNumThen 'H' ['P', 'T'] = none ∧ searchNumThen 'M' ['P', 'T'] = none ∧
    searchNumThen 'S' ['P', 'T'] = none ∧ parse_duration ['P', 'T'] = 0 :=
  ⟨by decide, by decide, by decide,
    parse_duration_zero_fallback ['P', 'T'] (by decide) (by decide) (by decide)⟩

/-- C7: when the requested filter is shorts-only and fewer than 5 fetched
reference videos are shorts, or long-form-only and fewer than 5 are
long-form, the pipeline falls back to the unfiltered set (filter none)
and emits the warning, instead of failing or producing an empty band. -/
theorem insufficient_type_fallback (vids : List Bool) :
    ((vids.filter id).length < 5 → resolveTypeFilter (some true) vids = (none, true)) ∧
    (vids.length - (vids.filter id).length < 5 →
      resolveTypeFilter (some false) vids = (none, true)) := by
  constructor <;> intro h <;> simp [resolveTypeFilter, h]

/-- Witness for C7, the spec's scenario: 3 shorts and 47 long-form videos
with the shorts filter fall back to the unfiltered set with a warning. -/
theorem insufficient_type_fallback_witness :
    (((List.replicate 3 true ++ List.replicate 47 false).filter id).length < 5) ∧
    resolveTypeFilter (some true) (List.replicate 3 true ++ List.replicate 47 false) =
      (none, true) :=
  ⟨by decide, (insufficient_type_fallback (List.replicate 3 true ++ List.replicate 47 false)).1
    (by decide)⟩

/-- C5: rank boundaries are inclusive: a video whose view count equals the
upper band takes the first branch (Top label with payload 100 - p, color
green), and one whose view count equals the lower band while the band has
positive width takes the second branch (Bottom label, color red). -/
theorem rank_boundary (v l u : ℚ) (p : ℤ) :
    (v = u → performancePercentile v l u p = (RankLabel.topPct (100 - p), "green")) ∧
    (v = l → l < u → performancePercentile v l u p = (RankLabel.bottomPct p, "red")) := by
  constructor
  · intro h
    subst h
    simp [performancePercentile]
  · intro h hlt
    subst h
    have h1 : ¬(v ≥ u) := not_le.mpr hlt
    simp [performancePercentile, h1]

/-- Witness for C5 at concrete band values (lower 3, upper 7, width 25). -/
theorem rank_boundary_witness :
    performancePercentile 7 3 7 25 = (RankLabel.topPct 75, "green") ∧
    performancePercentile 3 3 7 25 = (RankLabel.bottomPct 25, "red") :=
  ⟨by have h := (rank_boundary 7 3 7 25).1 rfl; simpa using h,
   by have h := (rank_boundary 3 3 7 25).2 rfl (by norm_num); simpa using h⟩

/-- C10: the gray Average fallback branch of the ranking block is
unreachable: whenever the first two branches are declined the band has
strictly positive width, so the interpolation branch fires. -/
theorem average_branch_unreachable (v l u : ℚ) (p : ℤ) :
    (performancePercentile v l u p).1 ≠ RankLabel.average ∧
    (performancePercentile v l u p).2 ≠ "gray" := by
  unfold performancePercentile
  split_ifs with h1 h2 h3
  · exact ⟨by simp, by simp⟩
  · exact ⟨by simp, by simp⟩
  · exact ⟨by simp, by simp⟩
  · exfalso
    have hv : v < u := not_le.mp h1
    have hl : l < v := not_le.mp h2
    exact h3 (sub_pos.mpr (lt_trans hl hv))

/-- C2 is false as stated: with band parameter 50 the code computes the
lower band at quantile level 50 / 100 (the median), not at level
(100 - 50) / 200 = 1/4 (the 25th percentile): on the day-0 observations
0 and 100 the code's lower band is 50, while the 25th percentile is 25. -/
theorem quantile_convention_counterexample :
    ((calculate_benchmark [(0, 0), (0, 100)] 50).getD 0 ⟨0, 0, 0, 0, 0, 0⟩).lower_band = 50 ∧
    quantile [0, 100] ((100 - 50) / 200) = 25 ∧ (50 : ℚ) ≠ 25 := by
  refine ⟨?_, ?_, by norm_num⟩
  · norm_num [calculate_benchmark, bandRowFor, obsAtDay, quantile,
      List.insertionSort, List.orderedInsert, List.dedup]
  · norm_num [quantile, List.insertionSort, List.orderedInsert]

/-- C2 amended: calculate_benchmark computes the lower band at quantile
level percentile_range / 100 and the upper band at level
1 - percentile_range / 100 (the half-width-as-percentile convention), so
percentile_range = 25 — not 50 — yields the 25th and 75th percentiles:
day-3 observations 100, 200, 300 at parameter 25 give the band
(150, 250) with median 200. -/
theorem quantile_convention (df : List (ℕ × ℚ)) (p : ℚ) (d : ℕ) :
    (bandRowFor df p d).lower_band = quantile (obsAtDay df d) (p / 100) ∧
    (bandRowFor df p d).upper_band = quantile (obsAtDay df d) (1 - p / 100) ∧
    bandRowFor [(3, 100), (3, 200), (3, 300)] 25 3 =
      ⟨3, 150, 250, 200, 200, 3⟩ :=
  ⟨rfl, rfl, by
    norm_num [bandRowFor, obsAtDay, quantile, List.insertionSort, List.orderedInsert,
      BandRow.mk.injEq]⟩

/-! ### Helper lemmas for the trajectory generator -/

theorem getD_irrel {α : Type} : ∀ (l : List α) (i : ℕ), i < l.length →
    ∀ d₁ d₂ : α, l.getD i d₁ = l.getD i d₂ := by
  intro l i h d₁ d₂
  rw [List.getD_eq_getElem l d₁ h, List.getD_eq_getElem l d₂ h]

theorem noisePassAux_length (noise : ℕ → ℝ) (xs : List ℝ) :
    ∀ (i : ℕ) (prev : ℝ), (noisePassAux noise i prev xs).length = xs.length := by
  induction xs with
  | nil => intro i prev; rfl
  | cons x rest ih => intro i prev; simp only [noisePassAux, List.length_cons, ih]

theorem noisePass_length (noise : ℕ → ℝ) (xs : List ℝ) :
    (noisePass noise xs).length = xs.length := by
  cases xs with
  | nil => rfl
  | cons x rest => simp only [noisePass, List.length_cons, noisePassAux_length]

theorem rawTrajectory_length (days total_views : ℕ) (is_short : Bool) :
    (rawTrajectory days total_views is_short).length = days := by
  simp [rawTrajectory]

theorem scaledTrajectory_length (days total_views : ℕ) (is_short : Bool) :
    (scaledTrajectory days total_views is_short).length = days := by
  simp [scaledTrajectory, rawTrajectory_length]

theorem adjustedTrajectory_length (days total_views : ℕ) (is_short : Bool) (noise : ℕ → ℝ) :
    (adjustedTrajectory days total_views is_short noise).length = days := by
  simp [adjustedTrajectory, noisePass_length, scaledTrajectory_length]

theorem noisePassAux_stepsUp (noise : ℕ → ℝ) (xs : List ℝ) :
    ∀ (i : ℕ) (prev : ℝ), StepsUp prev (noisePassAux noise i prev xs) := by
  induction xs with
  | nil => intro i prev; trivial
  | cons x rest ih => intro i prev; exact ⟨le_max_left _ _, ih (i + 1) _⟩

theorem stepsUp_le_getD {p : ℝ} {ys : List ℝ} (h : StepsUp p ys) :
    ∀ i, i < ys.length → p ≤ ys.getD i 0 := by
  induction ys generalizing p with
  | nil => intro i hi; simp at hi
  | cons y rest ih =>
    intro i hi
    have h1 : p + 10 ≤ y := h.1
    cases i with
    | zero =>
      rw [List.getD_cons_zero]
      linarith
    | succ j =>
      rw [List.getD_cons_succ]
      have h2 := ih h.2 j (by simpa using hi)
      linarith

theorem stepsUp_getD_step {p : ℝ} {ys : List ℝ} (h : StepsUp p ys) :
    ∀ i, i + 1 < ys.length → ys.getD i 0 + 10 ≤ ys.getD (i + 1) 0 := by
  induction ys generalizing p with
  | nil => intro i hi; simp at hi
  | cons y rest ih =>
    intro i hi
    cases i with
    | zero =>
      cases rest with
      | nil => simp at hi
      | cons r rest2 =>
        have h1 : y + 10 ≤ r := h.2.1
        rw [List.getD_cons_zero, List.getD_cons_succ, List.getD_cons_zero]
        exact h1
    | succ j =>
      rw [List.getD_cons_succ, List.getD_cons_succ]
      exact ih h.2 j (by simpa using hi)

/-- Every adjusted value is at least 100 (day 0 is floored at 100 and
later days only increase). -/
theorem noisePass_ge_100 (noise : ℕ → ℝ) (xs : List ℝ) :
    ∀ i, i < xs.length → (100 : ℝ) ≤ (noisePass noise xs).getD i 0 := by
  cases xs with
  | nil => intro i hi; simp at hi
  | cons x rest =>
    intro i hi
    simp only [noisePass]
    cases i with
    | zero =>
      rw [List.getD_cons_zero]
      exact le_max_left _ _
    | succ j =>
      rw [List.getD_cons_succ]
      have hst := noisePassAux_stepsUp noise rest 1 (max 100 (x + noise 0))
      have hj : j < (noisePassAux noise 1 (max 100 (x + noise 0)) rest).length := by
        rw [noisePassAux_length]
        simpa using hi
      have h2 := stepsUp_le_getD hst j hj
      have h3 : (100 : ℝ) ≤ max 100 (x + noise 0) := le_max_left _ _
      linarith

/-- Consecutive adjusted values increase by at least 10. -/
theorem noisePass_step (noise : ℕ → ℝ) (xs : List ℝ) :
    ∀ i, i + 1 < xs.length →
      (noisePass noise xs).getD i 0 + 10 ≤ (noisePass noise xs).getD (i + 1) 0 := by
  cases xs with
  | nil => intro i hi; simp at hi
  | cons x rest =>
    intro i hi
    have hfull : StepsUp (max 100 (x + noise 0) - 10) (noisePass noise (x :: rest)) := by
      refine ⟨by linarith, noisePassAux_stepsUp noise rest 1 _⟩
    refine stepsUp_getD_step hfull i ?_
    rw [noisePass_length]
    exact hi

/-- Each adjusted value dominates its input value plus its noise draw. -/
theorem noisePassAux_ge_input (noise : ℕ → ℝ) (xs : List ℝ) :
    ∀ (i : ℕ) (prev : ℝ) (j : ℕ), j < xs.length →
      xs.getD j 0 + noise (i + j) ≤ (noisePassAux noise i prev xs).getD j 0 := by
  induction xs with
  | nil => intro i prev j hj; simp at hj
  | cons x rest ih =>
    intro i prev j hj
    cases j with
    | zero => simp [noisePassAux, le_max_right]
    | succ k =>
      have h1 := ih (i + 1) (max (prev + 10) (x + noise i)) k (by simpa using hj)
      have hidx : i + 1 + k = i + (k + 1) := by omega
      rw [hidx] at h1
      simp only [noisePassAux, List.getD_cons_succ]
      exact h1

theorem noisePass_ge_input (noise : ℕ → ℝ) (xs : List ℝ) :
    ∀ j, j < xs.length → xs.getD j 0 + noise j ≤ (noisePass noise xs).getD j 0 := by
  cases xs with
  | nil => intro j hj; simp at hj
  | cons x rest =>
    intro j hj
    cases j with
    | zero => simp [noisePass, le_max_right]
    | succ k =>
      have h1 := noisePassAux_ge_input noise rest 1 (max 100 (x + noise 0)) k (by simpa using hj)
      have hidx : 1 + k = k + 1 := by omega
      rw [hidx] at h1
      simp only [noisePass, List.getD_cons_succ]
      exact h1

/-- The emitted point at an in-range day index. -/
theorem generate_getD (days total_views : ℕ) (is_short : Bool) (noise : ℕ → ℝ)
    (i : ℕ) (h : i < days) :
    (generate_view_trajectory days total_views is_short noise).getD i ⟨0, 0, 0⟩ =
      ⟨i, truncInt ((diffs (adjustedTrajectory days total_views is_short noise)).getD i 0),
        truncInt ((adjustedTrajectory days total_views is_short noise).getD i 0)⟩ := by
  unfold generate_view_trajectory
  rw [List.getD_eq_getElem _ _ (by simpa using h)]
  simp [h]

theorem truncInt_eq_floor {x : ℝ} (h : 0 ≤ x) : truncInt x = ⌊x⌋ := if_pos h

/-- Integer-truncation bound from a real lower bound (for nonnegative
values, truncation is the floor). -/
theorem le_truncInt {n : ℤ} {x : ℝ} (h : (n : ℝ) ≤ x) (hx : 0 ≤ x) : n ≤ truncInt x := by
  rw [truncInt_eq_floor hx]
  exact Int.le_floor.mpr h

/-- Truncation preserves a gap of 10 between nonnegative values. -/
theorem truncInt_add_ten_le {a b : ℝ} (hab : a + 10 ≤ b) (ha : 0 ≤ a) :
    truncInt a + 10 ≤ truncInt b := by
  rw [truncInt_eq_floor ha, truncInt_eq_floor (by linarith)]
  rw [Int.le_floor]
  push_cast
  have := Int.floor_le a
  linarith

/-- C3: for every final view count, every day count at least 1 and every
noise draw, the emitted integer trajectory starts at cumulativeViews at
least 100 and increases by at least 10 per day. -/
theorem trajectory_monotonicity (days total_views : ℕ) (is_short : Bool) (noise : ℕ → ℝ)
    (hd : 1 ≤ days) :
    (100 : ℤ) ≤ ((generate_view_trajectory days total_views is_short noise).getD 0
      ⟨0, 0, 0⟩).cumulative_views ∧
    ∀ i, i + 1 < days →
      ((generate_view_trajectory days total_views is_short noise).getD i
        ⟨0, 0, 0⟩).cumulative_views + 10 ≤
      ((generate_view_trajectory days total_views is_short noise).getD (i + 1)
        ⟨0, 0, 0⟩).cumulative_views := by
  have hlen : (scaledTrajectory days total_views is_short).length = days :=
    scaledTrajectory_length days total_views is_short
  constructor
  · rw [generate_getD days total_views is_short noise 0 (by omega)]
    dsimp only
    have h100 := noisePass_ge_100 noise (scaledTrajectory days total_views is_short) 0
      (by omega)
    unfold adjustedTrajectory
    exact le_truncInt (by push_cast; linarith) (by linarith)
  · intro i hi
    rw [generate_getD days total_views is_short noise i (by omega),
      generate_getD days total_views is_short noise (i + 1) (by omega)]
    dsimp only
    have hstep := noisePass_step noise (scaledTrajectory days total_views is_short) i
      (by omega)
    have h100i := noisePass_ge_100 noise (scaledTrajectory days total_views is_short) i
      (by omega)
    unfold adjustedTrajectory
    exact truncInt_add_ten_le hstep (by linarith)

/-- Witness for C3 at days = 3, total_views = 1000, long-form, zero noise. -/
theorem trajectory_monotonicity_witness :
    1 ≤ 3 ∧
    ((100 : ℤ) ≤ ((generate_view_trajectory 3 1000 false (fun _ => 0)).getD 0
      ⟨0, 0, 0⟩).cumulative_views ∧
    ∀ i, i + 1 < 3 →
      ((generate_view_trajectory 3 1000 false (fun _ => 0)).getD i
        ⟨0, 0, 0⟩).cumulative_views + 10 ≤
      ((generate_view_trajectory 3 1000 false (fun _ => 0)).getD (i + 1)
        ⟨0, 0, 0⟩).cumulative_views) :=
  ⟨by decide, trajectory_monotonicity 3 1000 false (fun _ => 0) (by decide)⟩

/-! ### Ground-truth pinning (C1) -/

theorem rawTrajectory_getD (days total_views : ℕ) (is_short : Bool) (i : ℕ) (h : i < days) :
    (rawTrajectory days total_views is_short).getD i 0 =
      (total_views : ℝ) * rawShape is_short days i := by
  unfold rawTrajectory
  rw [List.getD_eq_getElem _ _ (by simpa using h)]
  simp

/-- The last raw shape sample is evaluated at argument 1 and is strictly
positive for both shape classes. -/
theorem rawShape_last_pos (is_short : Bool) (days : ℕ) (hd : 1 ≤ days) :
    0 < rawShape is_short days (days - 1) := by
  have h1 : days - 1 + 1 = days := by omega
  have harg : ((days - 1 + 1 : ℕ) : ℝ) / (days : ℝ) = 1 := by
    rw [h1, div_self (Nat.cast_ne_zero.mpr (by omega))]
  unfold rawShape
  cases is_short with
  | false =>
    simp only [Bool.false_eq_true, if_false]
    positivity
  | true =>
    simp only [if_true]
    rw [harg, Real.one_rpow, mul_one]
    have hexp : Real.exp (-5) < 1 := Real.exp_lt_one_iff.mpr (by norm_num)
    linarith

/-- When total_views is positive the scaling step makes the last scaled
sample exactly total_views. -/
theorem scaledTrajectory_last (days total_views : ℕ) (is_short : Bool) (hd : 1 ≤ days)
    (htv : 0 < total_views) :
    (scaledTrajectory days total_views is_short).getD (days - 1) 0 = (total_views : ℝ) := by
  have hraw := rawTrajectory_getD days total_views is_short (days - 1) (by omega)
  have hpos : 0 < (rawTrajectory days total_views is_short).getD (days - 1) 0 := by
    rw [hraw]
    exact mul_pos (by exact_mod_cast htv) (rawShape_last_pos is_short days hd)
  have hlt : days - 1 < (rawTrajectory days total_views is_short).length := by
    rw [rawTrajectory_length]
    omega
  unfold scaledTrajectory
  rw [List.getD_eq_getElem _ _ (by simpa using hlt), List.getElem_map,
    ← List.getD_eq_getElem _ 0 hlt]
  unfold scaling_factor
  rw [if_pos hpos, mul_comm, div_mul_cancel₀ _ (ne_of_gt hpos)]

/-- C1 is false as stated: at finalViews = 0 and days = 1 the noise
standard deviation is 0.05 * 0 = 0, so the only possible draw is the zero
function, yet the single emitted point has cumulativeViews 100 (the day-0
floor of the monotonicity repair), not 0. -/
theorem pinning_counterexample :
    ((generate_view_trajectory 1 0 true (fun _ => 0)).getD 0 ⟨0, 0, 0⟩).cumulative_views = 100 ∧
    (100 : ℤ) ≠ 0 := by
  constructor
  · rw [generate_getD 1 0 true (fun _ => 0) 0 (by omega)]
    dsimp only
    have hraw : rawTrajectory 1 0 true = [0] := by
      unfold rawTrajectory
      simp
    have hsf : scaledTrajectory 1 0 true = [0] := by
      unfold scaledTrajectory scaling_factor
      rw [hraw]
      simp
    have hadj : adjustedTrajectory 1 0 true (fun _ => 0) = [(100 : ℝ)] := by
      unfold adjustedTrajectory
      rw [hsf]
      simp only [noisePass, noisePassAux]
      rw [show ((0 : ℝ) + 0) = 0 by ring, max_eq_left (by norm_num)]
    rw [hadj]
    simp only [List.getD_cons_zero]
    rw [truncInt_eq_floor (by norm_num)]
    norm_num
  · decide

/-- C1 amended: exact pinning of the final cumulative value holds only up
to the injected noise and the monotonicity floors: with the zero noise
draw the final emitted cumulativeViews is at least finalViews, and it
equals finalViews when days = 1 and finalViews ≥ 100 (so that the day-0
floor does not fire); with other draws or smaller finalViews the final
value can differ from finalViews, as the counterexample shows. -/
theorem pinning_amended (days total_views : ℕ) (is_short : Bool) (hd : 1 ≤ days) :
    (total_views : ℤ) ≤ ((generate_view_trajectory days total_views is_short (fun _ => 0)).getD
      (days - 1) ⟨0, 0, 0⟩).cumulative_views ∧
    (days = 1 → 100 ≤ total_views →
      ((generate_view_trajectory days total_views is_short (fun _ => 0)).getD 0
        ⟨0, 0, 0⟩).cumulative_views = (total_views : ℤ)) := by
  constructor
  · rw [generate_getD days total_views is_short (fun _ => 0) (days - 1) (by omega)]
    dsimp only
    have h100 := noisePass_ge_100 (fun _ => 0) (scaledTrajectory days total_views is_short)
      (days - 1) (by rw [scaledTrajectory_length]; omega)
    rcases Nat.eq_zero_or_pos total_views with h0 | hpos
    · subst h0
      unfold adjustedTrajectory
      exact le_truncInt (by push_cast; linarith) (by linarith)
    · have hin := noisePass_ge_input (fun _ => 0) (scaledTrajectory days total_views is_short)
        (days - 1) (by rw [scaledTrajectory_length]; omega)
      rw [scaledTrajectory_last days total_views is_short hd hpos] at hin
      unfold adjustedTrajectory
      exact le_truncInt (by push_cast at hin ⊢; linarith) (by linarith)
  · intro h1 h100
    subst h1
    rw [generate_getD 1 total_views is_short (fun _ => 0) 0 (by omega)]
    dsimp only
    have hlen : (scaledTrajectory 1 total_views is_short).length = 1 :=
      scaledTrajectory_length 1 total_views is_short
    rcases List.length_eq_one.mp hlen with ⟨a, ha⟩
    have hvala : a = (total_views : ℝ) := by
      have := scaledTrajectory_last 1 total_views is_short (by omega) (by omega)
      rw [ha] at this
      simpa using this
    have hadj : adjustedTrajectory 1 total_views is_short (fun _ => 0) = [(total_views : ℝ)] := by
      unfold adjustedTrajectory
      rw [ha, hvala]
      simp only [noisePass, noisePassAux]
      rw [show ((total_views : ℝ) + 0) = (total_views : ℝ) by ring,
        max_eq_right (by exact_mod_cast h100)]
    rw [hadj]
    simp only [List.getD_cons_zero]
    rw [truncInt_eq_floor (by positivity)]
    exact Int.floor_natCast total_views

/-- Witness for the amended C1 at days = 1 and finalViews = 150: the
final (and only) emitted point has cumulativeViews exactly 150. -/
theorem pinning_amended_witness :
    1 ≤ 1 ∧
    ((150 : ℤ) ≤ ((generate_view_trajectory 1 150 true (fun _ => 0)).getD 0
      ⟨0, 0, 0⟩).cumulative_views ∧
    (1 = 1 → 100 ≤ 150 →
      ((generate_view_trajectory 1 150 true (fun _ => 0)).getD 0
        ⟨0, 0, 0⟩).cumulative_views = (150 : ℤ))) :=
  ⟨by decide, by
    have h := pinning_amended 1 150 true (by decide)
    simpa using h⟩

/-! ### Delta consistency (C4) -/

theorem diffsAux_length (prev : ℝ) (xs : List ℝ) :
    (diffsAux prev xs).length = xs.length := by
  induction xs generalizing prev with
  | nil => rfl
  | cons x rest ih => simp only [diffsAux, List.length_cons, ih]

theorem diffs_length (xs : List ℝ) : (diffs xs).length = xs.length := by
  cases xs with
  | nil => rfl
  | cons x rest => simp only [diffs, List.length_cons, diffsAux_length]

/-- The successive differences telescope back to the last value. -/
theorem diffsAux_sum (xs : List ℝ) : ∀ prev : ℝ,
    prev + (diffsAux prev xs).sum = xs.getD (xs.length - 1) prev := by
  induction xs with
  | nil => intro prev; simp [diffsAux]
  | cons x rest ih =>
    intro prev
    cases rest with
    | nil =>
      simp [diffsAux]
    | cons y rest2 =>
      have h1 := ih x
      simp only [diffsAux, List.sum_cons]
      simp only [diffsAux, List.sum_cons] at h1
      have hlen2 : (x :: y :: rest2).length - 1 = rest2.length + 1 := by simp
      rw [hlen2, List.getD_cons_succ]
      have hlen3 : (y :: rest2).length - 1 = rest2.length := by simp
      rw [hlen3] at h1
      have hirr : (y :: rest2).getD rest2.length x = (y :: rest2).getD rest2.length prev :=
        getD_irrel _ _ (by simp) x prev
      rw [← hirr]
      linarith

theorem diffs_sum (xs : List ℝ) (h : xs ≠ []) :
    (diffs xs).sum = xs.getD (xs.length - 1) 0 := by
  cases xs with
  | nil => exact absurd rfl h
  | cons x rest =>
    simp only [diffs, List.sum_cons]
    cases rest with
    | nil => simp [diffsAux]
    | cons y rest2 =>
      have h1 := diffsAux_sum (y :: rest2) x
      have hlen3 : (y :: rest2).length - 1 = rest2.length := by simp
      rw [hlen3] at h1
      have hlen2 : (x :: y :: rest2).length - 1 = rest2.length + 1 := by simp
      rw [hlen2, List.getD_cons_succ]
      have hirr : (y :: rest2).getD rest2.length x = (y :: rest2).getD rest2.length 0 :=
        getD_irrel _ _ (by simp) x 0
      rw [← hirr]
      simp only [diffsAux, List.sum_cons] at h1 ⊢
      linarith

theorem diffsAux_mem_nonneg {prev : ℝ} {xs : List ℝ} (h : StepsUp prev xs) :
    ∀ v ∈ diffsAux prev xs, 0 ≤ v := by
  induction xs generalizing prev with
  | nil => intro v hv; simp [diffsAux] at hv
  | cons x rest ih =>
    intro v hv
    simp only [diffsAux, List.mem_cons] at hv
    rcases hv with rfl | hv
    · have h1 : prev + 10 ≤ x := h.1
      linarith
    · exact ih h.2 v hv

/-- Every derived daily value of an adjusted trajectory is nonnegative
(day 0 is at least 100 and later deltas are at least 10). -/
theorem diffs_adjusted_nonneg (days total_views : ℕ) (is_short : Bool) (noise : ℕ → ℝ) :
    ∀ v ∈ diffs (adjustedTrajectory days total_views is_short noise), 0 ≤ v := by
  unfold adjustedTrajectory
  cases hsc : scaledTrajectory days total_views is_short with
  | nil => intro v hv; simp [noisePass, diffs] at hv
  | cons x rest =>
    intro v hv
    simp only [noisePass, diffs, List.mem_cons] at hv
    rcases hv with rfl | hv
    · exact le_trans (by norm_num) (le_max_left 100 (x + noise 0))
    · exact diffsAux_mem_nonneg (noisePassAux_stepsUp noise rest 1 _) v hv

theorem adjusted_ge_100 (days total_views : ℕ) (is_short : Bool) (noise : ℕ → ℝ)
    (i : ℕ) (h : i < days) :
    (100 : ℝ) ≤ (adjustedTrajectory days total_views is_short noise).getD i 0 := by
  unfold adjustedTrajectory
  exact noisePass_ge_100 noise _ i (by rw [scaledTrajectory_length]; omega)

/-- Flooring entrywise can only lose mass relative to flooring the sum. -/
theorem sum_floor_le_floor_sum (l : List ℝ) :
    (l.map (fun x => ⌊x⌋)).sum ≤ ⌊l.sum⌋ := by
  induction l with
  | nil => simp
  | cons x rest ih =>
    simp only [List.map_cons, List.sum_cons]
    have h1 : ⌊x⌋ + ⌊rest.sum⌋ ≤ ⌊x + rest.sum⌋ := by
      rw [Int.le_floor]
      push_cast
      have h2 := Int.floor_le x
      have h3 := Int.floor_le rest.sum
      linarith
    omega

theorem map_getD_range (l : List ℝ) (g : ℝ → ℤ) :
    (List.range l.length).map (fun i => g (l.getD i 0)) = l.map g := by
  refine List.ext_getElem (by simp) ?_
  intro i h1 h2
  simp only [List.getElem_map, List.getElem_range]
  rw [List.getD_eq_getElem _ _ (by simpa using h2)]

/-- The emitted dailyViews column as integer truncations of the derived
daily list. -/
theorem generate_map_daily (days total_views : ℕ) (is_short : Bool) (noise : ℕ → ℝ) :
    (generate_view_trajectory days total_views is_short noise).map
        (fun pt => pt.daily_views) =
      (List.range days).map (fun i =>
        truncInt ((diffs (adjustedTrajectory days total_views is_short noise)).getD i 0)) := by
  unfold generate_view_trajectory
  rw [List.map_map]
  rfl

/-- C4 is false as stated: at days = 2, finalViews = 1000, shorts shape
and the (possible, since the noise standard deviation is 50) draw c4Noise,
the adjusted cumulative values are 100.5 and 111.4, so the emitted daily
views are 100 and 10 (sum 110) while the emitted final cumulative value
is 111. -/
theorem delta_counterexample :
    ((generate_view_trajectory 2 1000 true c4Noise).map (fun pt => pt.daily_views)).sum = 110 ∧
    ((generate_view_trajectory 2 1000 true c4Noise).getD 1 ⟨0, 0, 0⟩).cumulative_views = 111 ∧
    (110 : ℤ) ≠ 111 := by
  have hlen2 : (scaledTrajectory 2 1000 true).length = 2 := scaledTrajectory_length 2 1000 true
  rcases List.length_eq_two.mp hlen2 with ⟨a, b, hab⟩
  have hn0 : c4Noise 0 = 100.5 - a := by simp [c4Noise, hab]
  have hn1 : c4Noise 1 = 111.4 - b := by simp [c4Noise, hab]
  have hadj : adjustedTrajectory 2 1000 true c4Noise = [(100.5 : ℝ), 111.4] := by
    unfold adjustedTrajectory
    rw [hab]
    simp only [noisePass, noisePassAux]
    rw [hn0, hn1, show a + (100.5 - a) = (100.5 : ℝ) by ring,
      show b + (111.4 - b) = (111.4 : ℝ) by ring]
    rw [max_eq_right (by norm_num), max_eq_right (by norm_num)]
  have hdif : diffs (adjustedTrajectory 2 1000 true c4Noise) = [(100.5 : ℝ), 10.9] := by
    rw [hadj]
    simp only [diffs, diffsAux]
    norm_num
  refine ⟨?_, ?_, by decide⟩
  · rw [generate_map_daily, hdif, show List.range 2 = [0, 1] from rfl]
    simp only [List.map_cons, List.map_nil, List.getD_cons_zero, List.getD_cons_succ,
      List.sum_cons, List.sum_nil]
    rw [truncInt_eq_floor (by norm_num), truncInt_eq_floor (by norm_num)]
    norm_num
  · rw [generate_getD 2 1000 true c4Noise 1 (by omega)]
    dsimp only
    rw [hadj]
    simp only [List.getD_cons_succ, List.getD_cons_zero]
    rw [truncInt_eq_floor (by norm_num)]
    norm_num

/-- C4 amended: before the integer conversion the derived daily views sum
exactly to the final adjusted cumulative value; after the per-entry
integer conversion the emitted dailyViews sum to at most the final
emitted cumulativeViews (each entry is floored separately, so the sum can
fall short, as the counterexample shows). -/
theorem delta_amended (days total_views : ℕ) (is_short : Bool) (noise : ℕ → ℝ)
    (hd : 1 ≤ days) :
    (diffs (adjustedTrajectory days total_views is_short noise)).sum =
      (adjustedTrajectory days total_views is_short noise).getD (days - 1) 0 ∧
    ((generate_view_trajectory days total_views is_short noise).map
        (fun pt => pt.daily_views)).sum ≤
      ((generate_view_trajectory days total_views is_short noise).getD (days - 1)
        ⟨0, 0, 0⟩).cumulative_views := by
  have hlen : (adjustedTrajectory days total_views is_short noise).length = days :=
    adjustedTrajectory_length days total_views is_short noise
  have hne : adjustedTrajectory days total_views is_short noise ≠ [] := by
    intro h
    rw [h] at hlen
    simp at hlen
    omega
  have hsum := diffs_sum _ hne
  rw [hlen] at hsum
  refine ⟨hsum, ?_⟩
  rw [generate_map_daily, generate_getD days total_views is_short noise (days - 1) (by omega)]
  dsimp only
  have h2 : (List.range days).map (fun i =>
      truncInt ((diffs (adjustedTrajectory days total_views is_short noise)).getD i 0)) =
      (diffs (adjustedTrajectory days total_views is_short noise)).map truncInt := by
    have h3 := map_getD_range (diffs (adjustedTrajectory days total_views is_short noise))
      truncInt
    rw [diffs_length, hlen] at h3
    exact h3
  rw [h2, List.map_congr_left (fun v hv =>
    truncInt_eq_floor (diffs_adjusted_nonneg days total_views is_short noise v hv))]
  have h100 := adjusted_ge_100 days total_views is_short noise (days - 1) (by omega)
  calc ((diffs (adjustedTrajectory days total_views is_short noise)).map
      (fun x => ⌊x⌋)).sum
      ≤ ⌊(diffs (adjustedTrajectory days total_views is_short noise)).sum⌋ :=
        sum_floor_le_floor_sum _
    _ = ⌊(adjustedTrajectory days total_views is_short noise).getD (days - 1) 0⌋ := by
        rw [hsum]
    _ = truncInt ((adjustedTrajectory days total_views is_short noise).getD (days - 1) 0) :=
        (truncInt_eq_floor (by linarith)).symm

/-- Witness for the amended C4 at days = 2, finalViews = 500, shorts,
zero noise. -/
theorem delta_amended_witness :
    1 ≤ 2 ∧
    ((diffs (adjustedTrajectory 2 500 true (fun _ => 0))).sum =
      (adjustedTrajectory 2 500 true (fun _ => 0)).getD (2 - 1) 0 ∧
    ((generate_view_trajectory 2 500 true (fun _ => 0)).map
        (fun pt => pt.daily_views)).sum ≤
      ((generate_view_trajectory 2 500 true (fun _ => 0)).getD (2 - 1)
        ⟨0, 0, 0⟩).cumulative_views) :=
  ⟨by decide, delta_amended 2 500 true (fun _ => 0) (by decide)⟩

/-! ### Projection current-day pinning (C6) -/

theorem truncInt_intCast (z : ℤ) : truncInt (z : ℝ) = z := by
  unfold truncInt
  split_ifs
  · exact Int.floor_intCast z
  · exact Int.ceil_intCast z

theorem truncInt_natCast (n : ℕ) : truncInt (n : ℝ) = n := by
  rw [show ((n : ℕ) : ℝ) = ((n : ℤ) : ℝ) by push_cast; ring, truncInt_intCast]

theorem simRun_length (f : ℕ → ℤ → SimPoint) (l : List ℕ) :
    ∀ prev, (simRun f l prev).length = l.length := by
  induction l with
  | nil => intro prev; rfl
  | cons d rest ih => intro prev; simp only [simRun, List.length_cons, ih]

/-- Each output entry of the loop is the step function applied to the
corresponding day, for some previous-cumulative argument. -/
theorem simRun_getD (f : ℕ → ℤ → SimPoint) (l : List ℕ) :
    ∀ (prev : ℤ) (i : ℕ), i < l.length →
      ∃ q : ℤ, (simRun f l prev).getD i ⟨0, 0, 0, false⟩ = f (l.getD i 0) q := by
  induction l with
  | nil => intro prev i hi; simp at hi
  | cons d rest ih =>
    intro prev i hi
    cases i with
    | zero => exact ⟨prev, rfl⟩
    | succ j =>
      rcases ih (f d prev).cumulative_views j (by simpa using hi) with ⟨q, hq⟩
      exact ⟨q, by simp only [simRun, List.getD_cons_succ]; exact hq⟩

/-- C6 is false as stated: with benchmark medians 10, 20, 30, a video of
age 2 days and 1000 current views, and the (possible) uniform jitter draw
0.99 on every day, the non-projected point at the video's current age has
cumulativeViews int(1000 * 0.99) = 990, not 1000: the jitter of line 451
is applied to the pinned current day too. -/
theorem projection_pinning_counterexample :
    ((simulate_video_performance 2 1000 [10, 20, 30] 2 (fun _ => 0.99)).getD 2
      ⟨0, 0, 0, false⟩).cumulative_views = 990 ∧
    ((simulate_video_performance 2 1000 [10, 20, 30] 2 (fun _ => 0.99)).getD 2
      ⟨0, 0, 0, false⟩).projected = false ∧
    (990 : ℤ) ≠ 1000 := by
  have e0 : truncInt (330 : ℝ) = 330 := by
    rw [show (330 : ℝ) = ((330 : ℤ) : ℝ) by norm_num, truncInt_intCast]
  have e1 : truncInt (660 : ℝ) = 660 := by
    rw [show (660 : ℝ) = ((660 : ℤ) : ℝ) by norm_num, truncInt_intCast]
  have e2 : truncInt (990 : ℝ) = 990 := by
    rw [show (990 : ℝ) = ((990 : ℤ) : ℝ) by norm_num, truncInt_intCast]
  have hsim : simulate_video_performance 2 1000 [10, 20, 30] 2 (fun _ => 0.99) =
      [⟨0, 330, 330, false⟩, ⟨1, 330, 660, false⟩, ⟨2, 330, 990, false⟩] := by
    simp only [simulate_video_performance]
    norm_num
    simp only [show List.range 3 = [0, 1, 2] from rfl, simRun, simStep1]
    norm_num [e0, e1, e2]
  rw [hsim]
  refine ⟨by simp, by simp, by decide⟩

/-- C6 amended: the non-projected point at the video's current age (when
that age lies within the benchmark band) has cumulativeViews equal to
int(currentViews * jitterDraw): it equals the video's real current view
count exactly when the uniform jitter draw at that day is 1, since the
per-point jitter is applied after the pinning (the counterexample shows a
draw where they differ). -/
theorem projection_pinning_amended (dsp cv : ℕ) (med : List ℝ) (max_days : ℕ)
    (h2 : 2 ≤ dsp) (hlen : dsp < med.length) :
    ((simulate_video_performance dsp cv med max_days (fun _ => 1)).getD dsp
      ⟨0, 0, 0, false⟩).cumulative_views = (cv : ℤ) ∧
    ((simulate_video_performance dsp cv med max_days (fun _ => 1)).getD dsp
      ⟨0, 0, 0, false⟩).projected = false := by
  have hc : (if dsp < 2 then 2 else dsp) = dsp := if_neg (by omega)
  have hmin : min (dsp + 1) med.length = dsp + 1 := min_eq_left (by omega)
  simp only [simulate_video_performance, hc, hmin]
  set pf : ℝ := if dsp < med.length then
      (if med.getD dsp 0 > 0 then (cv : ℝ) / med.getD dsp 0 else 1)
    else 1 with hpf
  have hl1 : (simRun (simStep1 cv dsp pf med (fun _ => 1)) (List.range (dsp + 1)) 0).length =
      dsp + 1 := by
    rw [simRun_length]
    simp
  rw [List.getD_append _ _ _ _ (by omega)]
  rcases simRun_getD (simStep1 cv dsp pf med (fun _ => 1)) (List.range (dsp + 1)) 0 dsp
    (by simp) with ⟨q, hq⟩
  rw [hq, List.getD_eq_getElem _ _ (by simp), List.getElem_range]
  simp only [simStep1, if_pos rfl]
  constructor
  · simp only [mul_one]
    exact truncInt_natCast cv
  · trivial

/-- Witness for the amended C6: age 2 days, 1000 current views, medians
10, 20, 30, unit jitter: the day-2 point is pinned to exactly 1000. -/
theorem projection_pinning_amended_witness :
    2 ≤ 2 ∧ 2 < ([10, 20, 30] : List ℝ).length ∧
    (((simulate_video_performance 2 1000 [10, 20, 30] 2 (fun _ => 1)).getD 2
      ⟨0, 0, 0, false⟩).cumulative_views = (1000 : ℤ) ∧
    ((simulate_video_performance 2 1000 [10, 20, 30] 2 (fun _ => 1)).getD 2
      ⟨0, 0, 0, false⟩).projected = false) :=
  ⟨by decide, by simp,
    projection_pinning_amended 2 1000 [10, 20, 30] 2 (by decide) (by simp)⟩

/-! ### Band ordering (C8) -/

theorem sorted_getD_mono {s : List ℚ} (hs : s.Sorted (· ≤ ·)) {a b : ℕ}
    (hab : a ≤ b) (hb : b < s.length) : s.getD a 0 ≤ s.getD b 0 := by
  have ha : a < s.length := lt_of_le_of_lt hab hb
  rw [List.getD_eq_getElem s 0 ha, List.getD_eq_getElem s 0 hb]
  have h := @List.Sorted.rel_get_of_le ℚ (· ≤ ·) _ s hs ⟨a, ha⟩ ⟨b, hb⟩ hab
  simpa using h

/-- The linear-interpolation quantile is monotone in the quantile level
on a nonempty observation list. -/
theorem quantile_mono (xs : List ℚ) (hne : xs ≠ []) {q1 q2 : ℚ}
    (h0 : 0 ≤ q1) (h12 : q1 ≤ q2) (h21 : q2 ≤ 1) :
    quantile xs q1 ≤ quantile xs q2 := by
  simp only [quantile]
  have hs : (List.insertionSort (· ≤ ·) xs).Sorted (· ≤ ·) :=
    List.sorted_insertionSort _ xs
  have hlen : (List.insertionSort (· ≤ ·) xs).length = xs.length :=
    List.length_insertionSort _ xs
  have hnpos : 0 < xs.length := List.length_pos.mpr hne
  set s := List.insertionSort (· ≤ ·) xs with hsdef
  set h₁ : ℚ := q1 * ((xs.length : ℚ) - 1) with hh1
  set h₂ : ℚ := q2 * ((xs.length : ℚ) - 1) with hh2
  have hn1 : (0 : ℚ) ≤ (xs.length : ℚ) - 1 := by
    have h : (1 : ℚ) ≤ (xs.length : ℚ) := by exact_mod_cast hnpos
    linarith
  have h1nn : 0 ≤ h₁ := mul_nonneg h0 hn1
  have h12' : h₁ ≤ h₂ := mul_le_mul_of_nonneg_right h12 hn1
  have h2nn : 0 ≤ h₂ := le_trans h1nn h12'
  have h2ub : h₂ ≤ (xs.length : ℚ) - 1 := by
    calc h₂ ≤ 1 * ((xs.length : ℚ) - 1) := by
          rw [hh2]
          exact mul_le_mul_of_nonneg_right h21 hn1
      _ = (xs.length : ℚ) - 1 := one_mul _
  have hf1nn : 0 ≤ ⌊h₁⌋ := Int.floor_nonneg.mpr h1nn
  have hf2nn : 0 ≤ ⌊h₂⌋ := Int.floor_nonneg.mpr h2nn
  have hf12 : ⌊h₁⌋ ≤ ⌊h₂⌋ := Int.floor_le_floor h12'
  have hz1 : (⌊h₁⌋.toNat : ℤ) = ⌊h₁⌋ := Int.toNat_of_nonneg hf1nn
  have hz2 : (⌊h₂⌋.toNat : ℤ) = ⌊h₂⌋ := Int.toNat_of_nonneg hf2nn
  have hc1 : ((⌊h₁⌋.toNat : ℕ) : ℚ) = (⌊h₁⌋ : ℚ) := by exact_mod_cast hz1
  have hc2 : ((⌊h₂⌋.toNat : ℕ) : ℚ) = (⌊h₂⌋ : ℚ) := by exact_mod_cast hz2
  have hfl1 : (⌊h₁⌋ : ℚ) ≤ h₁ := Int.floor_le h₁
  have hfu1 : h₁ < (⌊h₁⌋ : ℚ) + 1 := Int.lt_floor_add_one h₁
  have hfl2 : (⌊h₂⌋ : ℚ) ≤ h₂ := Int.floor_le h₂
  have hfu2 : h₂ < (⌊h₂⌋ : ℚ) + 1 := Int.lt_floor_add_one h₂
  have hfub2 : ⌊h₂⌋ ≤ (xs.length : ℤ) - 1 := by
    have h := Int.floor_le_floor h2ub
    rwa [show ((xs.length : ℚ) - 1) = (((xs.length : ℤ) - 1 : ℤ) : ℚ) by push_cast; ring,
      Int.floor_intCast] at h
  have hi2 : ⌊h₂⌋.toNat < xs.length := by omega
  have hi2s : ⌊h₂⌋.toNat < s.length := by rw [hlen]; exact hi2
  rcases eq_or_lt_of_le (Int.toNat_le_toNat hf12) with heq | hlt
  · -- same interpolation cell
    have hfeq : ⌊h₁⌋ = ⌊h₂⌋ := by omega
    rw [heq, hfeq]
    by_cases hedge : ⌊h₂⌋.toNat + 1 < s.length
    · have hD : s.getD ⌊h₂⌋.toNat 0 ≤ s.getD (⌊h₂⌋.toNat + 1) 0 :=
        sorted_getD_mono hs (by omega) hedge
      nlinarith [mul_le_mul_of_nonneg_right h12'
        (sub_nonneg.mpr hD)]
    · -- the cell is the last index: both levels are exactly the top
      have hideq : ⌊h₂⌋.toNat = xs.length - 1 := by omega
      have htop : h₂ ≤ (⌊h₂⌋ : ℚ) := by
        rw [← hc2, hideq]
        have h : ((xs.length - 1 : ℕ) : ℚ) = (xs.length : ℚ) - 1 := by
          have h1 : (1 : ℕ) ≤ xs.length := hnpos
          push_cast [Nat.cast_sub h1]
          ring
        rw [h]
        exact h2ub
      have heq12 : h₁ = h₂ := by
        have h : h₂ ≤ h₁ := by
          calc h₂ ≤ (⌊h₂⌋ : ℚ) := htop
            _ = (⌊h₁⌋ : ℚ) := by rw [hfeq]
            _ ≤ h₁ := hfl1
        linarith
      rw [heq12]
  · -- strictly later interpolation cell
    have hi1s : ⌊h₁⌋.toNat + 1 ≤ ⌊h₂⌋.toNat := hlt
    have hD1 : s.getD ⌊h₁⌋.toNat 0 ≤ s.getD (⌊h₁⌋.toNat + 1) 0 :=
      sorted_getD_mono hs (by omega) (by omega)
    have hstep1 : s.getD ⌊h₁⌋.toNat 0 + (h₁ - (⌊h₁⌋ : ℚ)) *
        (s.getD (⌊h₁⌋.toNat + 1) 0 - s.getD ⌊h₁⌋.toNat 0) ≤ s.getD (⌊h₁⌋.toNat + 1) 0 := by
      nlinarith [mul_le_mul_of_nonneg_right (le_of_lt (by linarith : h₁ - (⌊h₁⌋ : ℚ) < 1))
        (sub_nonneg.mpr hD1)]
    have hstep2 : s.getD (⌊h₁⌋.toNat + 1) 0 ≤ s.getD ⌊h₂⌋.toNat 0 :=
      sorted_getD_mono hs (by omega) hi2s
    have hstep3 : s.getD ⌊h₂⌋.toNat 0 ≤ s.getD ⌊h₂⌋.toNat 0 + (h₂ - (⌊h₂⌋ : ℚ)) *
        (s.getD (⌊h₂⌋.toNat + 1) 0 - s.getD ⌊h₂⌋.toNat 0) := by
      by_cases hedge : ⌊h₂⌋.toNat + 1 < s.length
      · have hD2 : s.getD ⌊h₂⌋.toNat 0 ≤ s.getD (⌊h₂⌋.toNat + 1) 0 :=
          sorted_getD_mono hs (by omega) hedge
        nlinarith [mul_nonneg (by linarith : (0 : ℚ) ≤ h₂ - (⌊h₂⌋ : ℚ))
          (sub_nonneg.mpr hD2)]
      · have hideq : ⌊h₂⌋.toNat = xs.length - 1 := by omega
        have htop : h₂ ≤ (⌊h₂⌋ : ℚ) := by
          rw [← hc2, hideq]
          have h : ((xs.length - 1 : ℕ) : ℚ) = (xs.length : ℚ) - 1 := by
            have h1 : (1 : ℕ) ≤ xs.length := hnpos
            push_cast [Nat.cast_sub h1]
            ring
          rw [h]
          exact h2ub
        have hzero : h₂ - (⌊h₂⌋ : ℚ) = 0 := by linarith
        rw [hzero, zero_mul, add_zero]
    linarith

/-- C8: for every band row produced from a nonempty day group and every
band parameter between 0 and 50 (the UI slider admits 10 to 45), the
bands are ordered: lowerBand ≤ median ≤ upperBand, and in particular
lowerBand ≤ upperBand. -/
theorem band_ordering (df : List (ℕ × ℚ)) (p : ℚ) (row : BandRow)
    (hrow : row ∈ calculate_benchmark df p) (hc : 0 < row.count)
    (hp0 : 0 ≤ p) (hp : p ≤ 50) :
    row.lower_band ≤ row.median ∧ row.median ≤ row.upper_band ∧
    row.lower_band ≤ row.upper_band := by
  rcases List.mem_map.mp hrow with ⟨d, hd, rfl⟩
  have hlenpos : 0 < (obsAtDay df d).length := hc
  have hobs : obsAtDay df d ≠ [] := List.length_pos.mp hlenpos
  have h1 : quantile (obsAtDay df d) (p / 100) ≤ quantile (obsAtDay df d) (1 / 2) :=
    quantile_mono (obsAtDay df d) hobs (by positivity) (by linarith) (by norm_num)
  have h2 : quantile (obsAtDay df d) (1 / 2) ≤ quantile (obsAtDay df d) (1 - p / 100) :=
    quantile_mono (obsAtDay df d) hobs (by norm_num) (by linarith) (by linarith)
  exact ⟨h1, h2, le_trans h1 h2⟩

/-- Witness for C8 on day-0 observations 1 and 3 with band parameter 25:
the produced row satisfies the ordering. -/
theorem band_ordering_witness :
    (bandRowFor [((0 : ℕ), (1 : ℚ)), (0, 3)] 25 0 ∈
      calculate_benchmark [((0 : ℕ), (1 : ℚ)), (0, 3)] 25) ∧
    0 < (bandRowFor [((0 : ℕ), (1 : ℚ)), (0, 3)] 25 0).count ∧
    (0 : ℚ) ≤ 25 ∧ (25 : ℚ) ≤ 50 ∧
    ((bandRowFor [((0 : ℕ), (1 : ℚ)), (0, 3)] 25 0).lower_band ≤
        (bandRowFor [((0 : ℕ), (1 : ℚ)), (0, 3)] 25 0).median ∧
      (bandRowFor [((0 : ℕ), (1 : ℚ)), (0, 3)] 25 0).median ≤
        (bandRowFor [((0 : ℕ), (1 : ℚ)), (0, 3)] 25 0).upper_band ∧
      (bandRowFor [((0 : ℕ), (1 : ℚ)), (0, 3)] 25 0).lower_band ≤
        (bandRowFor [((0 : ℕ), (1 : ℚ)), (0, 3)] 25 0).upper_band) :=
  ⟨by
    unfold calculate_benchmark
    rw [show List.insertionSort (· ≤ ·)
        (([((0 : ℕ), (1 : ℚ)), (0, 3)].map (fun r => r.1)).dedup) = [0] by decide]
    simp,
   by decide, by norm_num, by norm_num,
   band_ordering [((0 : ℕ), (1 : ℚ)), (0, 3)] 25 _
    (by
      unfold calculate_benchmark
      rw [show List.insertionSort (· ≤ ·)
          (([((0 : ℕ), (1 : ℚ)), (0, 3)].map (fun r => r.1)).dedup) = [0] by decide]
      simp)
    (by decide) (by norm_num) (by norm_num)⟩

end ChannelStats
